import Mathlib

/-!
Verification development for the `ip2c` repository.

The core of the repository (`src/itree.rs`) is an interval-keyed ordered map:
a `BTreeMap` whose keys are intervals, ordered by a comparator for which
`Equal` means "the two intervals intersect".  We shallowly embed that code
here: the backing `BTreeMap` is modelled by its ordered list of entries
(sorted strictly by the comparator), machine integers are modelled by the
mathematical integers of the generic ordered scalar type, and the Rust
`assert_eq!` preconditions inside the comparator are modelled by a separate
"checked" comparator returning `none` when an assertion would fire (a panic).

The address-string parsers of `src/util.rs` and the registry-line parser of
`src/rir/parse.rs` are embedded over `List Char`, with `u32`/`u128`
arithmetic carried out in `Nat` with explicit `% 2^32` / `% 2^128` where the
Rust code wraps.
-/

namespace Ip2c

namespace ITree

/-- The interval type of `src/itree.rs`.
`Range lo hi` is the half-open interval `[lo, hi)` (invariant `lo < hi`);
`Scope lo hi` is the closed interval `[lo, hi]` (invariant `lo ≤ hi`). -/
inductive Interval (T : Type) where
  | Range (lo hi : T)
  | Scope (lo hi : T)
deriving DecidableEq, Repr

namespace Interval

variable {T : Type} [LinearOrder T]

/-- The well-formedness condition asserted by the comparator and checked by
`insert_interval`: `Range lo hi` needs `lo < hi`, `Scope lo hi` needs `lo ≤ hi`. -/
def valid : Interval T → Bool
  | .Range lo hi => lo < hi
  | .Scope lo hi => lo ≤ hi

/-- The comparison mathematics of `impl Ord for Interval` (src/itree.rs:50-75):
`Equal` iff the two intervals intersect, `Less`/`Greater` otherwise according
to which lies entirely below/above.  The `assert_eq!` preconditions of the
Rust code are modelled separately by `cmpChecked`. -/
def cmp : Interval T → Interval T → Ordering
  | .Scope x0 x1, .Scope y0 y1 =>
      if x1 < y0 then .lt else if x0 > y1 then .gt else .eq
  | .Range x0 x1, .Range y0 y1 =>
      if x1 ≤ y0 then .lt else if x0 ≥ y1 then .gt else .eq
  | .Range r0 r1, .Scope s0 s1 =>
      if r1 ≤ s0 then .lt else if r0 > s1 then .gt else .eq
  | .Scope s0 s1, .Range r0 r1 =>
      (if r1 ≤ s0 then Ordering.lt else if r0 > s1 then Ordering.gt else Ordering.eq).swap

/-- `Ord::cmp` with its `assert_eq!` preconditions: `none` models a panic
(the asserts in each arm amount to well-formedness of both arguments). -/
def cmpChecked (a b : Interval T) : Option Ordering :=
  if a.valid ∧ b.valid then some (a.cmp b) else none

/-- The set of points covered by an interval:
`Range lo hi` covers `{x | lo ≤ x < hi}`, `Scope lo hi` covers `{x | lo ≤ x ≤ hi}`. -/
def mem (x : T) : Interval T → Bool
  | .Range lo hi => lo ≤ x ∧ x < hi
  | .Scope lo hi => lo ≤ x ∧ x ≤ hi

end Interval

/-- Two intervals overlap when some point lies in both covered sets. -/
def Overlaps {T : Type} [LinearOrder T] (a b : Interval T) : Prop :=
  ∃ x, a.mem x ∧ b.mem x

/-- The two error kinds of `IntervalError` (src/itree.rs:77-81); each carries
the two intervals of the corresponding `[Interval<K>; 2]` payload. -/
inductive IntervalError (T : Type) where
  | Invalid (offending suggested : Interval T)
  | Conflict (candidate existing : Interval T)
deriving DecidableEq, Repr

/-- The `IntervalTreeMap` of src/itree.rs:100-105, modelled by the ordered
list of entries of its backing `BTreeMap` (ascending in the comparator). -/
abbrev IntervalTreeMap (T V : Type) := List (Interval T × V)

variable {T : Type} [LinearOrder T] {V : Type}

/-- `BTreeMap` entry lookup with an interval probe: the entry whose key
compares `Equal` (i.e. overlaps the probe). -/
def findEntry (m : IntervalTreeMap T V) (k : Interval T) :
    Option (Interval T × V) :=
  m.find? (fun e => k.cmp e.1 == .eq)

/-- `IntervalTreeMap::query` (src/itree.rs:145-148): look up the degenerate
single-point interval. -/
def query (m : IntervalTreeMap T V) (point : T) : Option V :=
  (findEntry m (.Scope point point)).map (·.2)

/-- `IntervalTreeMap::get_key_value` (src/itree.rs:162-165). -/
def get_key_value (m : IntervalTreeMap T V) (point : T) :
    Option (Interval T × V) :=
  findEntry m (.Scope point point)

/-- `BTreeMap` placement of a new key that compares `Equal` to no stored key:
immediately before the first stored entry it compares `Less` than. -/
def listInsert (k : Interval T) (v : V) :
    IntervalTreeMap T V → IntervalTreeMap T V
  | [] => [(k, v)]
  | e :: t => if k.cmp e.1 = .lt then (k, v) :: e :: t else e :: listInsert k v t

/-- `IntervalTreeMap::_insert` (src/itree.rs:245-254): the `entry` lookup
either finds an occupied slot (an overlapping stored key `k1`, rejected as
`Conflict [key, k1]` with the map untouched) or a vacant one (the pair is
inserted).  The returned pair is (`Result` value, map after the call). -/
def _insert (m : IntervalTreeMap T V) (key : Interval T) (value : V) :
    Except (IntervalError T) Unit × IntervalTreeMap T V :=
  match findEntry m key with
  | some e => (.error (.Conflict key e.1), m)
  | none => (.ok (), listInsert key value m)

/-- The validation match of `IntervalTreeMap::insert_interval`
(src/itree.rs:182-190), returning the suggested replacement interval of the
`Invalid` error when the key is malformed. -/
def invalidSuggestion : Interval T → Option (Interval T)
  | .Scope a b => if a > b then some (.Scope b a) else none
  | .Range a b =>
      if a > b then some (.Range b a)
      else if a = b then some (.Scope a b) else none

/-- `IntervalTreeMap::insert_interval` (src/itree.rs:182-190): validate the
key, then `_insert`. -/
def insert_interval (m : IntervalTreeMap T V) (key : Interval T) (value : V) :
    Except (IntervalError T) Unit × IntervalTreeMap T V :=
  match invalidSuggestion key with
  | some k' => (.error (.Invalid key k'), m)
  | none => _insert m key value

/-- `IntervalTreeMap::insert_range` (src/itree.rs:194-196). -/
def insert_range (m : IntervalTreeMap T V) (left right : T) (value : V) :
    Except (IntervalError T) Unit × IntervalTreeMap T V :=
  insert_interval m (.Range left right) value

/-- `IntervalTreeMap::insert_scope` (src/itree.rs:199-201). -/
def insert_scope (m : IntervalTreeMap T V) (left right : T) (value : V) :
    Except (IntervalError T) Unit × IntervalTreeMap T V :=
  insert_interval m (.Scope left right) value

/-- `IntervalTreeMap::insert_point` (src/itree.rs:204-206). -/
def insert_point (m : IntervalTreeMap T V) (point : T) (value : V) :
    Except (IntervalError T) Unit × IntervalTreeMap T V :=
  insert_interval m (.Scope point point) value

/-- `BTreeMap::remove` with an interval probe (`IntervalTreeMap::_remove`,
src/itree.rs:281-283): remove the entry comparing `Equal` to the probe. -/
def _remove : IntervalTreeMap T V → Interval T → Option V × IntervalTreeMap T V
  | [], _ => (none, [])
  | e :: t, k =>
      if k.cmp e.1 = .eq then (some e.2, t)
      else
        let r := _remove t k
        (r.1, e :: r.2)

/-- `IntervalTreeMap::remove_interval` (src/itree.rs:273-279): look up by the
overlap comparator, but only remove on an exact structural match. -/
def remove_interval (m : IntervalTreeMap T V) (key : Interval T) :
    Option V × IntervalTreeMap T V :=
  match findEntry m key with
  | none => (none, m)
  | some e => if e.1 = key then _remove m key else (none, m)

/-- The public mutating operations of `IntervalTreeMap` (claim C2's
operation alphabet). -/
inductive Op (T V : Type) where
  | opInsertInterval (k : Interval T) (v : V)
  | opInsertRange (a b : T) (v : V)
  | opInsertScope (a b : T) (v : V)
  | opInsertPoint (p : T) (v : V)
  | opRemoveInterval (k : Interval T)

/-- Apply one public operation to the map (keeping only the map state). -/
def applyOp (m : IntervalTreeMap T V) : Op T V → IntervalTreeMap T V
  | .opInsertInterval k v => (insert_interval m k v).2
  | .opInsertRange a b v => (insert_range m a b v).2
  | .opInsertScope a b v => (insert_scope m a b v).2
  | .opInsertPoint p v => (insert_point m p v).2
  | .opRemoveInterval k => (remove_interval m k).2

/-- Apply a sequence of public operations starting from the empty map. -/
def applyOps (ops : List (Op T V)) : IntervalTreeMap T V :=
  ops.foldl applyOp []

/-- The representation invariant of the model: the entry list is strictly
ascending in the comparator and every stored key is well-formed.  Every map
reachable through the public API satisfies it. -/
def Inv (m : IntervalTreeMap T V) : Prop :=
  m.Pairwise (fun a b => a.1.cmp b.1 = .lt) ∧ ∀ e ∈ m, e.1.valid

/-- Batch insertion through `insert_interval`, aborting on the first error
(the claim C6 round-trip loader). -/
def insertAllFrom (m : IntervalTreeMap T V) :
    List (Interval T × V) → Option (IntervalTreeMap T V)
  | [] => some m
  | e :: t =>
      match insert_interval m e.1 e.2 with
      | (.ok _, m') => insertAllFrom m' t
      | (.error _, _) => none

/-- Batch insertion into an initially empty map. -/
def insertAll (l : List (Interval T × V)) : Option (IntervalTreeMap T V) :=
  insertAllFrom [] l

/-! Panic-aware variants of the public operations.  Each comparison goes
through `Interval.cmpChecked`, so an operation evaluates to `none` exactly
when some comparison it performs would trip an `assert_eq!` in the Rust
comparator (a panic); otherwise it returns `some` of the normal result. -/

/-- Panic-aware `findEntry`. -/
def findEntryChecked (m : IntervalTreeMap T V) (k : Interval T) :
    Option (Option (Interval T × V)) :=
  match m with
  | [] => some none
  | e :: t =>
      match k.cmpChecked e.1 with
      | none => none
      | some .eq => some (some e)
      | some _ => findEntryChecked t k

/-- Panic-aware `listInsert`. -/
def listInsertChecked (k : Interval T) (v : V) :
    IntervalTreeMap T V → Option (IntervalTreeMap T V)
  | [] => some [(k, v)]
  | e :: t =>
      match k.cmpChecked e.1 with
      | none => none
      | some .lt => some ((k, v) :: e :: t)
      | some _ => (listInsertChecked k v t).map (e :: ·)

/-- Panic-aware `_insert`. -/
def _insertChecked (m : IntervalTreeMap T V) (key : Interval T) (value : V) :
    Option (Except (IntervalError T) Unit × IntervalTreeMap T V) :=
  match findEntryChecked m key with
  | none => none
  | some (some e) => some (.error (.Conflict key e.1), m)
  | some none => (listInsertChecked key value m).map ((.ok (), ·))

/-- Panic-aware `insert_interval`: validation happens before any comparison. -/
def insert_interval_checked (m : IntervalTreeMap T V) (key : Interval T)
    (value : V) :
    Option (Except (IntervalError T) Unit × IntervalTreeMap T V) :=
  match invalidSuggestion key with
  | some k' => some (.error (.Invalid key k'), m)
  | none => _insertChecked m key value

/-- Panic-aware `insert_range`. -/
def insert_range_checked (m : IntervalTreeMap T V) (left right : T) (value : V) :
    Option (Except (IntervalError T) Unit × IntervalTreeMap T V) :=
  insert_interval_checked m (.Range left right) value

/-- Panic-aware `insert_scope`. -/
def insert_scope_checked (m : IntervalTreeMap T V) (left right : T) (value : V) :
    Option (Except (IntervalError T) Unit × IntervalTreeMap T V) :=
  insert_interval_checked m (.Scope left right) value

/-- Panic-aware `insert_point`. -/
def insert_point_checked (m : IntervalTreeMap T V) (point : T) (value : V) :
    Option (Except (IntervalError T) Unit × IntervalTreeMap T V) :=
  insert_interval_checked m (.Scope point point) value

/-- Panic-aware `query`. -/
def query_checked (m : IntervalTreeMap T V) (point : T) : Option (Option V) :=
  (findEntryChecked m (.Scope point point)).map (·.map (·.2))

/-- Panic-aware `get_key_value`. -/
def get_key_value_checked (m : IntervalTreeMap T V) (point : T) :
    Option (Option (Interval T × V)) :=
  findEntryChecked m (.Scope point point)

/-- Panic-aware `_remove`. -/
def _removeChecked : IntervalTreeMap T V → Interval T →
    Option (Option V × IntervalTreeMap T V)
  | [], _ => some (none, [])
  | e :: t, k =>
      match k.cmpChecked e.1 with
      | none => none
      | some .eq => some (some e.2, t)
      | some _ => (_removeChecked t k).map (fun r => (r.1, e :: r.2))

/-- Panic-aware `remove_interval`. -/
def remove_interval_checked (m : IntervalTreeMap T V) (key : Interval T) :
    Option (Option V × IntervalTreeMap T V) :=
  match findEntryChecked m key with
  | none => none
  | some none => some (none, m)
  | some (some e) =>
      if e.1 = key then _removeChecked m key else some (none, m)

end ITree

namespace Str

/-- Split a character list at the first occurrence of `c` (Rust
`str::find` + `split_at` + dropping the separator); `none` when `c` is absent. -/
def splitOnFirst (c : Char) : List Char → Option (List Char × List Char)
  | [] => none
  | x :: t =>
      if x = c then some ([], t)
      else (splitOnFirst c t).map (fun p => (x :: p.1, p.2))

/-- Split a character list at every occurrence of `c` (Rust `str::split`). -/
def splitChar (c : Char) : List Char → List (List Char)
  | [] => [[]]
  | x :: t =>
      if x = c then [] :: splitChar c t
      else
        match splitChar c t with
        | h :: r => (x :: h) :: r
        | [] => [[x]]

/-- Value of a non-empty all-decimal-digit string; `none` otherwise. -/
def decDigits (s : List Char) : Option Nat :=
  if s ≠ [] ∧ s.all Char.isDigit then
    some (s.foldl (fun acc c => acc * 10 + (c.toNat - 48)) 0)
  else none

/-- Rust `u8::from_str`: an optional leading `+`, then decimal digits
(leading zeros allowed), failing when the value exceeds `u8::MAX`. -/
def parseU8 (s : List Char) : Option Nat :=
  let t := match s with | '+' :: t => t | _ => s
  match decDigits t with
  | some n => if n ≤ 255 then some n else none
  | none => none

/-- Rust `u32::from_str`, as `parseU8` with the `u32::MAX` bound. -/
def parseU32 (s : List Char) : Option Nat :=
  let t := match s with | '+' :: t => t | _ => s
  match decDigits t with
  | some n => if n ≤ 4294967295 then some n else none
  | none => none

/-- One octet of `std::net::Ipv4Addr`'s parser: decimal digits, value at most
255, and no leading zero (only `"0"` itself may start with `0`). -/
def parseOctet (s : List Char) : Option Nat :=
  match decDigits s with
  | some n =>
      if n ≤ 255 ∧ (match s with | '0' :: _ :: _ => false | _ => true) = true then
        some n
      else none
  | none => none

/-- `std::net::Ipv4Addr::from_str` (dependency of the repository, modelled
from its documented dotted-quad grammar): exactly four octets separated by
dots, combined big-endian into a `u32` value. -/
def parseIPv4 (s : List Char) : Option Nat :=
  match (splitChar '.' s).mapM parseOctet with
  | some [a, b, c, d] => some (((a * 256 + b) * 256 + c) * 256 + d)
  | _ => none

/-- One hexadecimal group of an IPv6 address: one to four hex digits. -/
def parseH16 (s : List Char) : Option Nat :=
  if s ≠ [] ∧ s.length ≤ 4 ∧ s.all (fun c => c.isDigit ∨ ('a' ≤ c ∧ c ≤ 'f') ∨ ('A' ≤ c ∧ c ≤ 'F')) then
    some (s.foldl (fun acc c =>
      acc * 16 +
        (if c.isDigit then c.toNat - 48
         else if 'a' ≤ c then c.toNat - 87 else c.toNat - 55)) 0)
  else none

/-- The colon-separated groups at the end of an IPv6 address, where the last
group may be an embedded dotted-quad IPv4 address (worth two 16-bit groups). -/
def parseEndGroups : List (List Char) → Option (List Nat)
  | [] => some []
  | [p] =>
      if p.contains '.' then
        (parseIPv4 p).map (fun ip => [ip / 65536, ip % 65536])
      else (parseH16 p).map ([·])
  | p :: rest => do
      let g ← parseH16 p
      let gs ← parseEndGroups rest
      pure (g :: gs)

/-- Split at the first `"::"` (two adjacent colons), dropping both colons. -/
def splitDoubleColon : List Char → Option (List Char × List Char)
  | [] => none
  | ':' :: ':' :: t => some ([], t)
  | x :: t => (splitDoubleColon t).map (fun p => (x :: p.1, p.2))

/-- Combine 16-bit groups big-endian into a 128-bit value. -/
def combineGroups (gs : List Nat) : Nat :=
  gs.foldl (fun acc g => acc * 65536 + g) 0

/-- `std::net::Ipv6Addr::from_str` (dependency of the repository, modelled
from its documented colon-hex grammar): eight 16-bit hexadecimal groups, an
optional single `"::"` standing for one or more zero groups, and an optional
embedded dotted-quad IPv4 tail. -/
def parseIPv6 (s : List Char) : Option Nat :=
  match splitDoubleColon s with
  | some (a, b) => do
      let hs ← if a = [] then some [] else (splitChar ':' a).mapM parseH16
      let ts ← if b = [] then some [] else parseEndGroups (splitChar ':' b)
      if hs.length + ts.length ≤ 7 then
        pure (combineGroups
          (hs ++ List.replicate (8 - hs.length - ts.length) 0 ++ ts))
      else none
  | none => do
      let gs ← parseEndGroups (splitChar ':' s)
      if gs.length = 8 then pure (combineGroups gs) else none

end Str

namespace Util

open Str

/-- The CIDR (`"a/n"`) branch of `FromStr for Interval<IPv4>`
(src/util.rs:85-101), on the already-parsed address `ip` and prefix `n`.
`2^32 - 1 - add` is the `u32` bitwise complement `!add` of the low-bit
mask `add = (1 << (32 - n)) - 1`. -/
def cidr4 (ip n : Nat) : Option (Nat × Nat) :=
  if n = 0 then
    if ip = 0 then some (0, 2 ^ 32 - 1) else none
  else if n = 32 then some (ip, ip)
  else if n < 32 then
    let add := 2 ^ (32 - n) - 1
    let mask := 2 ^ 32 - 1 - add
    let ip0 := Nat.land ip mask
    some (ip0, ip0 + add)
  else none

/-- The CIDR (`"a/n"`) branch of `FromStr for Interval<IPv6>`
(src/util.rs:150-166), on the already-parsed address `ip` and prefix `n`. -/
def cidr6 (ip n : Nat) : Option (Nat × Nat) :=
  if n = 0 then
    if ip = 0 then some (0, 2 ^ 128 - 1) else none
  else if n = 128 then some (ip, ip)
  else if n < 128 then
    let add := 2 ^ (128 - n) - 1
    let mask := 2 ^ 128 - 1 - add
    let ip0 := Nat.land ip mask
    some (ip0, ip0 + add)
  else none

/-- `FromStr for Interval<IPv4>` (src/util.rs:54-108).  In the version of the
repository this file belongs to, `Interval` is the closed tuple struct
`Interval(lo, hi)`; the result is modelled as the pair `(lo, hi)` of `u32`
values.  `4294967040 = !255` is the `u32` complement of `255`. -/
def ipv4_interval_from_str (s : List Char) : Option (Nat × Nat) :=
  if s.length > 31 then none
  else
    match splitOnFirst '-' s with
    | some (a, b) =>
        match parseIPv4 a with
        | none => none
        | some ip =>
            if b.contains '.' then
              match parseIPv4 b with
              | none => none
              | some ip1 => some (ip, ip1)
            else
              match parseU8 b with
              | none => none
              | some n => some (ip, Nat.land ip 4294967040 + n)
    | none =>
        match splitOnFirst '/' s with
        | some (a, b) =>
            match parseIPv4 a with
            | none => none
            | some ip =>
                match parseU8 b with
                | none => none
                | some n => cidr4 ip n
        | none =>
            match parseIPv4 s with
            | none => none
            | some ip => some (ip, ip)

/-- `FromStr for Interval<IPv6>` (src/util.rs:137-173), modelled as the pair
`(lo, hi)` of `u128` values of the closed tuple-struct interval. -/
def ipv6_interval_from_str (s : List Char) : Option (Nat × Nat) :=
  if s.length > 48 ∨ ¬ s.contains ':' then none
  else
    match splitOnFirst '/' s with
    | some (a, b) =>
        match parseIPv6 a with
        | none => none
        | some ip =>
            match parseU8 b with
            | none => none
            | some n => cidr6 ip n
    | none =>
        match parseIPv6 s with
        | none => none
        | some ip => some (ip, ip)

end Util

namespace Rir

/-- Rust `str::splitn(n, sep)`: at most `n` pieces, the last piece keeping
the remainder unsplit. -/
def splitn (n : Nat) (c : Char) (s : List Char) : List (List Char) :=
  match n with
  | 0 => []
  | 1 => [s]
  | n + 1 =>
      match Str.splitOnFirst c s with
      | none => [s]
      | some (a, b) => a :: splitn n c b

/-- The interval type the `src/rir/parse.rs` revision of the repository
compiles against (a revision of `itree` whose `Interval` has a half-open
`Range` variant and a single-address `Point` variant). -/
inductive Interval (T : Type) where
  | Range (lo hi : T)
  | Point (p : T)
deriving DecidableEq, Repr

/-- `Code` (src/rir/country_region_code.rs:7-25): accepted iff the name is
exactly two bytes of UTF-8. -/
structure Code where
  raw : List Char
deriving DecidableEq, Repr

/-- `Code::new`. -/
def Code.new (name : List Char) : Option Code :=
  if (name.foldl (fun n c => n + c.utf8Size) 0) = 2 then some ⟨name⟩ else none

/-- `IpRange` (src/rir/parse.rs:13-16); addresses as `u32`/`u128` values. -/
inductive IpRange where
  | Ipv4 (i : Interval Nat)
  | Ipv6 (i : Interval Nat)
deriving DecidableEq, Repr

/-- `IpState` (src/rir/parse.rs:18-24). -/
inductive IpState where
  | Assigned
  | Allocated
  | Reserved
  | Available
  | Unknown
deriving DecidableEq, Repr

/-- `Entity` (src/rir/parse.rs:26-30). -/
structure Entity where
  range : IpRange
  state : IpState
  code : Code
deriving DecidableEq, Repr

/-- `parse_ipv4_range` (src/rir/parse.rs:72-76): base address plus a `u32`
count; a count of 1 yields a `Point`, otherwise the half-open `Range` from
the base to base + count (`u32` wrapping add). -/
def parse_ipv4_range (ip_str add : List Char) : Option (Interval Nat) := do
  let ip ← Str.parseIPv4 ip_str
  let a ← Str.parseU32 add
  pure (if a = 1 then .Point ip else .Range ip ((ip + a) % 2 ^ 32))

/-- `parse_ipv6_range` (src/rir/parse.rs:78-82): base address and a `u8`
field `mask`; a zero mask yields a `Point`, otherwise the half-open `Range`
from the base to base + `1 << mask` (`u128` wrapping add; the shift amount
is reduced mod 128 as in a release build — a debug build would panic for
`mask ≥ 128`). -/
def parse_ipv6_range (ip_str mask : List Char) : Option (Interval Nat) := do
  let ip ← Str.parseIPv6 ip_str
  let m ← Str.parseU8 mask
  pure (if m = 0 then .Point ip else .Range ip ((ip + 2 ^ (m % 128)) % 2 ^ 128))

/-- `parse_line` (src/rir/parse.rs:33-70): skip `#` comment lines, split into
at most 8 `|`-separated fields (missing fields read as empty), then require a
two-byte code in field 1, a non-empty status in field 6, and an `ipv4`/`ipv6`
family token in field 2. -/
def parse_line (line : List Char) : Option Entity :=
  if line.head? = some '#' then none
  else
    let sl := fun i => (splitn 8 '|' line).getD i []
    do
      let code ← Code.new (sl 1)
      let state ←
        if sl 6 = "allocated".toList then some IpState.Allocated
        else if sl 6 = "assigned".toList then some IpState.Assigned
        else if sl 6 = "reserved".toList then some IpState.Reserved
        else if sl 6 = "available".toList then some IpState.Available
        else if sl 6 = [] then none
        else some IpState.Unknown
      let range ←
        if sl 2 = "ipv4".toList then (parse_ipv4_range (sl 3) (sl 4)).map IpRange.Ipv4
        else if sl 2 = "ipv6".toList then (parse_ipv6_range (sl 3) (sl 4)).map IpRange.Ipv6
        else none
      pure { range := range, state := state, code := code }

end Rir

namespace ITree

/-! Proof infrastructure over the copyable ordered scalar type instantiated
at `ℤ`: every well-formed interval denotes the half-open integer interval
`[lo, hiEx)`, which turns the variant-by-variant comparator arithmetic into
a single formula. -/

/-- Inclusive lower bound of the covered set. -/
def Interval.lo : Interval ℤ → ℤ
  | .Range a _ => a
  | .Scope a _ => a

/-- Exclusive upper bound of the covered set. -/
def Interval.hiEx : Interval ℤ → ℤ
  | .Range _ b => b
  | .Scope _ b => b + 1

theorem valid_iff (a : Interval ℤ) : a.valid ↔ a.lo < a.hiEx := by
  cases a <;> simp [Interval.valid, Interval.lo, Interval.hiEx] <;> omega

theorem mem_iff (x : ℤ) (a : Interval ℤ) :
    a.mem x ↔ a.lo ≤ x ∧ x < a.hiEx := by
  cases a <;> simp [Interval.mem, Interval.lo, Interval.hiEx] <;> omega

theorem cmp_formula (a b : Interval ℤ) (ha : a.valid) (hb : b.valid) :
    a.cmp b =
      (if a.hiEx ≤ b.lo then .lt else if b.hiEx ≤ a.lo then .gt else .eq) := by
  cases a <;> cases b <;>
    simp only [Interval.cmp, Interval.valid, Interval.lo, Interval.hiEx,
      decide_eq_true_eq, gt_iff_lt, ge_iff_le, Ordering.swap] at ha hb ⊢ <;>
    split_ifs <;> first | rfl | (exfalso; omega)

theorem cmp_self (a : Interval ℤ) (ha : a.valid) : a.cmp a = .eq := by
  rw [cmp_formula a a ha ha]
  rw [valid_iff] at ha
  split_ifs <;> first | rfl | (exfalso; omega)

theorem cmp_swap_valid (a b : Interval ℤ) (ha : a.valid) (hb : b.valid) :
    b.cmp a = (a.cmp b).swap := by
  rw [cmp_formula a b ha hb, cmp_formula b a hb ha]
  rw [valid_iff] at ha hb
  split_ifs <;> first | rfl | (exfalso; omega)

theorem cmp_trans_lt (a b c : Interval ℤ) (ha : a.valid) (hb : b.valid)
    (hc : c.valid) (h1 : a.cmp b = .lt) (h2 : b.cmp c = .lt) :
    a.cmp c = .lt := by
  rw [cmp_formula a b ha hb] at h1
  rw [cmp_formula b c hb hc] at h2
  rw [cmp_formula a c ha hc]
  rw [valid_iff] at ha hb hc
  split_ifs at h1 h2 ⊢ <;> first | rfl | (exfalso; omega) | simp_all

theorem cmp_eq_iff_overlaps (a b : Interval ℤ) (ha : a.valid) (hb : b.valid) :
    a.cmp b = .eq ↔ Overlaps a b := by
  have ha' := (valid_iff a).mp ha
  have hb' := (valid_iff b).mp hb
  rw [cmp_formula a b ha hb]
  constructor
  · intro h
    split_ifs at h
    refine ⟨max a.lo b.lo, ?_, ?_⟩ <;> rw [mem_iff] <;>
      constructor <;> omega
  · rintro ⟨x, hx1, hx2⟩
    rw [mem_iff] at hx1 hx2
    split_ifs <;> first | rfl | (exfalso; omega)

theorem point_cmp_eq (x : ℤ) (k : Interval ℤ) (hk : k.valid) :
    (Interval.Scope x x).cmp k = .eq ↔ k.mem x := by
  rw [cmp_eq_iff_overlaps _ k (by simp [Interval.valid]) hk]
  constructor
  · rintro ⟨y, hy1, hy2⟩
    have : y = x := by
      rw [mem_iff] at hy1
      simp only [Interval.lo, Interval.hiEx] at hy1
      omega
    simpa [this] using hy2
  · intro h
    exact ⟨x, by rw [mem_iff]; simp [Interval.lo, Interval.hiEx], h⟩

theorem cmp_lt_of_swap_gt {a b : Interval ℤ} (ha : a.valid) (hb : b.valid)
    (h : a.cmp b = .gt) : b.cmp a = .lt := by
  rw [cmp_swap_valid a b ha hb, h] at *
  rfl

theorem cmp_gt_of_swap_lt {a b : Interval ℤ} (ha : a.valid) (hb : b.valid)
    (h : a.cmp b = .lt) : b.cmp a = .gt := by
  rw [cmp_swap_valid a b ha hb, h]
  rfl

/-! Lemmas about the list model of the backing `BTreeMap`. -/

section MapLemmas

variable {V : Type}

theorem ordering_beq_iff {o o' : Ordering} : (o == o') = true ↔ o = o' := by
  cases o <;> cases o' <;> decide

theorem ordering_beq_false_iff {o o' : Ordering} :
    (o == o') = false ↔ o ≠ o' := by
  cases o <;> cases o' <;> decide

theorem findEntry_eq_none {m : IntervalTreeMap ℤ V} {k : Interval ℤ} :
    findEntry m k = none ↔ ∀ e ∈ m, k.cmp e.1 ≠ .eq := by
  simp [findEntry, List.find?_eq_none, ordering_beq_false_iff]

theorem findEntry_some {m : IntervalTreeMap ℤ V} {k : Interval ℤ}
    {e : Interval ℤ × V} (h : findEntry m k = some e) :
    e ∈ m ∧ k.cmp e.1 = .eq := by
  refine ⟨List.mem_of_find?_eq_some h, ?_⟩
  have h1 := List.find?_some h
  exact ordering_beq_iff.mp h1

theorem mem_listInsert {m : IntervalTreeMap ℤ V} {k : Interval ℤ} {v : V}
    {e : Interval ℤ × V} :
    e ∈ listInsert k v m ↔ e = (k, v) ∨ e ∈ m := by
  induction m with
  | nil => simp [listInsert]
  | cons f t ih =>
      by_cases h : k.cmp f.1 = .lt <;> simp [listInsert, h, ih] <;> tauto

theorem listInsert_perm (m : IntervalTreeMap ℤ V) (k : Interval ℤ) (v : V) :
    (listInsert k v m).Perm ((k, v) :: m) := by
  induction m with
  | nil => simp [listInsert]
  | cons f t ih =>
      by_cases h : k.cmp f.1 = .lt
      · simp [listInsert, h]
      · simp only [listInsert, h, if_false]
        exact ((ih.cons f).trans (List.Perm.swap (k, v) f t))

theorem inv_cons_iff {f : Interval ℤ × V} {t : IntervalTreeMap ℤ V} :
    Inv (f :: t) ↔
      (∀ e ∈ t, f.1.cmp e.1 = .lt) ∧ f.1.valid ∧ Inv t := by
  constructor
  · rintro ⟨hs, hv⟩
    rw [List.pairwise_cons] at hs
    exact ⟨hs.1, hv f (by simp), hs.2, fun e he => hv e (by simp [he])⟩
  · rintro ⟨hlt, hfv, hs, hv⟩
    refine ⟨List.pairwise_cons.mpr ⟨hlt, hs⟩, ?_⟩
    intro e he
    rcases List.mem_cons.mp he with rfl | he'
    · exact hfv
    · exact hv e he'

theorem listInsert_inv {m : IntervalTreeMap ℤ V} {k : Interval ℤ} {v : V}
    (hm : Inv m) (hk : k.valid)
    (hno : ∀ e ∈ m, k.cmp e.1 ≠ .eq) : Inv (listInsert k v m) := by
  induction m with
  | nil => exact ⟨by simp [listInsert], by simp [listInsert, hk]⟩
  | cons f t ih =>
      rw [inv_cons_iff] at hm
      obtain ⟨hflt, hfv, ht⟩ := hm
      by_cases h : k.cmp f.1 = .lt
      · rw [show listInsert k v (f :: t) = (k, v) :: f :: t by
          simp [listInsert, h]]
        rw [inv_cons_iff]
        refine ⟨?_, hk, inv_cons_iff.mpr ⟨hflt, hfv, ht⟩⟩
        intro e he
        rcases List.mem_cons.mp he with rfl | he'
        · exact h
        · exact cmp_trans_lt k f.1 e.1 hk hfv (ht.2 e he') h (hflt e he')
      · rw [show listInsert k v (f :: t) = f :: listInsert k v t by
          simp [listInsert, h]]
        rw [inv_cons_iff]
        have hkgt : k.cmp f.1 = .gt := by
          rcases h3 : k.cmp f.1 with _ | _ | _
          · exact absurd h3 h
          · exact absurd h3 (hno f (by simp))
          · rfl
        refine ⟨?_, hfv, ih ht (fun e he => hno e (by simp [he]))⟩
        intro e he
        rcases mem_listInsert.mp he with rfl | he'
        · exact cmp_lt_of_swap_gt hk hfv hkgt
        · exact hflt e he'

theorem invalidSuggestion_eq_none {k : Interval ℤ} :
    invalidSuggestion k = none ↔ k.valid := by
  cases k <;>
    simp only [invalidSuggestion, Interval.valid, decide_eq_true_eq,
      gt_iff_lt] <;>
    split_ifs <;> simp_all <;> omega

theorem insert_interval_ok {m : IntervalTreeMap ℤ V} {k : Interval ℤ} {v : V}
    (hk : k.valid) (hno : ∀ e ∈ m, k.cmp e.1 ≠ .eq) :
    insert_interval m k v = (.ok (), listInsert k v m) := by
  rw [insert_interval, invalidSuggestion_eq_none.mpr hk]
  rw [_insert, findEntry_eq_none.mpr hno]

/-- Exhaustive case analysis of `insert_interval`'s result. -/
theorem insert_interval_cases (m : IntervalTreeMap ℤ V) (k : Interval ℤ)
    (v : V) :
    (∃ k', invalidSuggestion k = some k' ∧
        insert_interval m k v = (.error (.Invalid k k'), m)) ∨
    (invalidSuggestion k = none ∧ ∃ e, findEntry m k = some e ∧
        insert_interval m k v = (.error (.Conflict k e.1), m)) ∨
    (invalidSuggestion k = none ∧ findEntry m k = none ∧
        insert_interval m k v = (.ok (), listInsert k v m)) := by
  rw [insert_interval]
  rcases hs : invalidSuggestion k with _ | k'
  · rw [_insert]
    rcases hf : findEntry m k with _ | e
    · exact Or.inr (Or.inr ⟨rfl, rfl, rfl⟩)
    · exact Or.inr (Or.inl ⟨rfl, e, rfl, rfl⟩)
  · exact Or.inl ⟨k', rfl, rfl⟩

theorem _remove_sublist (m : IntervalTreeMap ℤ V) (k : Interval ℤ) :
    (_remove m k).2.Sublist m := by
  induction m with
  | nil => simp [_remove]
  | cons f t ih =>
      by_cases h : k.cmp f.1 = .eq
      · simp [_remove, h]
      · simpa [_remove, h] using ih.cons₂ f

theorem inv_sublist {m m' : IntervalTreeMap ℤ V} (h : m'.Sublist m)
    (hm : Inv m) : Inv m' :=
  ⟨hm.1.sublist h, fun e he => hm.2 e (h.mem he)⟩

theorem applyOp_inv {m : IntervalTreeMap ℤ V} (hm : Inv m) (op : Op ℤ V) :
    Inv (applyOp m op) := by
  have hins : ∀ (k : Interval ℤ) (v : V), Inv (insert_interval m k v).2 := by
    intro k v
    rw [insert_interval]
    rcases hs : invalidSuggestion k with _ | k'
    · rw [_insert]
      rcases hf : findEntry m k with _ | e
      · exact listInsert_inv hm (invalidSuggestion_eq_none.mp hs)
          (findEntry_eq_none.mp hf)
      · exact hm
    · exact hm
  cases op with
  | opInsertInterval k v => exact hins k v
  | opInsertRange a b v => exact hins (.Range a b) v
  | opInsertScope a b v => exact hins (.Scope a b) v
  | opInsertPoint p v => exact hins (.Scope p p) v
  | opRemoveInterval k =>
      rw [applyOp, remove_interval]
      rcases hf : findEntry m k with _ | e
      · exact hm
      · by_cases he : e.1 = k
        · simpa [he] using inv_sublist (_remove_sublist m k) hm
        · simpa [he] using hm

theorem applyOps_inv {V : Type} (ops : List (Op ℤ V)) : Inv (applyOps ops) := by
  rw [applyOps]
  have : ∀ (m : IntervalTreeMap ℤ V), Inv m → Inv (ops.foldl applyOp m) := by
    induction ops with
    | nil => exact fun m hm => hm
    | cons op t ih => exact fun m hm => ih _ (applyOp_inv hm op)
  exact this [] ⟨by simp, by simp⟩

theorem overlaps_comm {a b : Interval ℤ} : Overlaps a b ↔ Overlaps b a := by
  constructor <;> rintro ⟨x, h1, h2⟩ <;> exact ⟨x, h2, h1⟩

/-- Under the invariant, looking up a structurally stored key finds exactly
that entry. -/
theorem findEntry_of_mem {m : IntervalTreeMap ℤ V} {k : Interval ℤ} {v : V}
    (hm : Inv m) (hkv : (k, v) ∈ m) : findEntry m k = some (k, v) := by
  induction m with
  | nil => simp at hkv
  | cons f t ih =>
      rw [inv_cons_iff] at hm
      obtain ⟨hflt, hfv, ht⟩ := hm
      rcases List.mem_cons.mp hkv with h | h
      · rw [findEntry, List.find?_cons_of_pos]
        · rw [← h]
        · have : k.cmp f.1 = .eq := by
            rw [← h]
            exact cmp_self k (by simpa [← h] using hfv)
          simp [this, ordering_beq_iff]
      · have hkval : k.valid := ht.2 (k, v) h
        have hne : k.cmp f.1 = .gt :=
          cmp_gt_of_swap_lt hfv hkval (hflt (k, v) h)
        rw [findEntry, List.find?_cons_of_neg]
        · exact ih ht h
        · simp [hne, ordering_beq_false_iff]

/-- Under the invariant, a stored structural match is removed (and only it)
by `_remove`. -/
theorem _remove_of_mem {m : IntervalTreeMap ℤ V} {k : Interval ℤ} {v : V}
    (hm : Inv m) (hkv : (k, v) ∈ m) :
    (_remove m k).1 = some v ∧
      ∀ e, e ∈ (_remove m k).2 ↔ (e ∈ m ∧ e ≠ (k, v)) := by
  induction m with
  | nil => simp at hkv
  | cons f t ih =>
      rw [inv_cons_iff] at hm
      obtain ⟨hflt, hfv, ht⟩ := hm
      rcases List.mem_cons.mp hkv with h | h
      · have hkeq : k.cmp f.1 = .eq := by
          rw [← h]
          exact cmp_self k (by simpa [← h] using hfv)
        have hnotin : (k, v) ∉ t := by
          intro hc
          have := hflt (k, v) hc
          rw [← h] at this
          rw [cmp_self k (by simpa [← h] using hfv)] at this
          exact absurd this (by simp)
        have hred : _remove (f :: t) k = (some f.2, t) := by
          rw [_remove]
          simp [hkeq]
        rw [hred]
        refine ⟨by rw [← h], ?_⟩
        intro e
        constructor
        · intro he
          exact ⟨by simp [he], fun hc => hnotin (hc ▸ he)⟩
        · rintro ⟨he, hne⟩
          rcases List.mem_cons.mp he with rfl | he'
          · exact absurd h.symm hne
          · exact he'
      · have hkval : k.valid := ht.2 (k, v) h
        have hne : k.cmp f.1 = .gt :=
          cmp_gt_of_swap_lt hfv hkval (hflt (k, v) h)
        have hfne : f ≠ (k, v) := by
          rintro rfl
          rw [cmp_self k hkval] at hne
          exact absurd hne (by simp)
        obtain ⟨ih1, ih2⟩ := ih ht h
        have hred : _remove (f :: t) k =
            ((_remove t k).1, f :: (_remove t k).2) := by
          rw [_remove]
          simp [hne]
        rw [hred]
        refine ⟨ih1, ?_⟩
        intro e
        simp only [List.mem_cons]
        constructor
        · rintro (rfl | he)
          · exact ⟨Or.inl rfl, hfne⟩
          · obtain ⟨h1, h2⟩ := (ih2 e).mp he
            exact ⟨Or.inr h1, h2⟩
        · rintro ⟨rfl | he, hnekv⟩
          · exact Or.inl rfl
          · exact Or.inr ((ih2 e).mpr ⟨he, hnekv⟩)

/-! Agreement of the panic-aware operations with the pure model whenever no
assertion can fire. -/

theorem cmpChecked_eq {a b : Interval ℤ} (ha : a.valid) (hb : b.valid) :
    a.cmpChecked b = some (a.cmp b) := by
  simp [Interval.cmpChecked, ha, hb]

theorem findEntryChecked_eq {m : IntervalTreeMap ℤ V} {k : Interval ℤ}
    (hk : k.valid) (hm : ∀ e ∈ m, e.1.valid) :
    findEntryChecked m k = some (findEntry m k) := by
  induction m with
  | nil => simp [findEntryChecked, findEntry]
  | cons f t ih =>
      rw [findEntryChecked, cmpChecked_eq hk (hm f (by simp))]
      rcases hc : k.cmp f.1 with _ | _ | _ <;>
        simp only [findEntry, List.find?, hc] <;>
        first
          | rfl
          | exact ih (fun e he => hm e (by simp [he]))

theorem listInsertChecked_eq {m : IntervalTreeMap ℤ V} {k : Interval ℤ} {v : V}
    (hk : k.valid) (hm : ∀ e ∈ m, e.1.valid) :
    listInsertChecked k v m = some (listInsert k v m) := by
  induction m with
  | nil => simp [listInsertChecked, listInsert]
  | cons f t ih =>
      rw [listInsertChecked, cmpChecked_eq hk (hm f (by simp))]
      rcases hc : k.cmp f.1 with _ | _ | _ <;>
        simp only [listInsert, hc, if_true, if_false, reduceCtorEq] <;>
        first
          | rfl
          | simp [ih (fun e he => hm e (by simp [he]))]

theorem _removeChecked_eq {m : IntervalTreeMap ℤ V} {k : Interval ℤ}
    (hk : k.valid) (hm : ∀ e ∈ m, e.1.valid) :
    _removeChecked m k = some (_remove m k) := by
  induction m with
  | nil => simp [_removeChecked, _remove]
  | cons f t ih =>
      rw [_removeChecked, cmpChecked_eq hk (hm f (by simp))]
      rcases hc : k.cmp f.1 with _ | _ | _ <;>
        simp only [_remove, hc, if_true, if_false, reduceCtorEq] <;>
        first
          | rfl
          | simp [ih (fun e he => hm e (by simp [he]))]

theorem insert_interval_checked_eq {m : IntervalTreeMap ℤ V}
    (hm : ∀ e ∈ m, e.1.valid) (k : Interval ℤ) (v : V) :
    insert_interval_checked m k v = some (insert_interval m k v) := by
  rw [insert_interval_checked, insert_interval]
  rcases hs : invalidSuggestion k with _ | k'
  · have hk : k.valid := invalidSuggestion_eq_none.mp hs
    rw [_insertChecked, _insert, findEntryChecked_eq hk hm]
    rcases hf : findEntry m k with _ | e
    · simp [listInsertChecked_eq hk hm]
    · rfl
  · rfl

theorem query_checked_eq {m : IntervalTreeMap ℤ V}
    (hm : ∀ e ∈ m, e.1.valid) (p : ℤ) :
    query_checked m p = some (query m p) := by
  rw [query_checked, query,
    findEntryChecked_eq (by simp [Interval.valid]) hm]
  rfl

theorem get_key_value_checked_eq {m : IntervalTreeMap ℤ V}
    (hm : ∀ e ∈ m, e.1.valid) (p : ℤ) :
    get_key_value_checked m p = some (get_key_value m p) := by
  rw [get_key_value_checked, get_key_value,
    findEntryChecked_eq (by simp [Interval.valid]) hm]

theorem remove_interval_checked_eq {m : IntervalTreeMap ℤ V}
    (hm : ∀ e ∈ m, e.1.valid) {k : Interval ℤ} (hk : k.valid) :
    remove_interval_checked m k = some (remove_interval m k) := by
  rw [remove_interval_checked, remove_interval, findEntryChecked_eq hk hm]
  rcases hf : findEntry m k with _ | e
  · rfl
  · by_cases he : e.1 = k <;> simp [he, _removeChecked_eq hk hm]

/-! Batch insertion: success and order independence over disjoint batches. -/

theorem insertAllFrom_spec :
    ∀ (l : List (Interval ℤ × V)) (m : IntervalTreeMap ℤ V),
      Inv m → (∀ e ∈ l, e.1.valid) →
      l.Pairwise (fun a b => ¬ Overlaps a.1 b.1) →
      (∀ e ∈ l, ∀ f ∈ m, ¬ Overlaps e.1 f.1) →
      ∃ s, insertAllFrom m l = some s ∧ Inv s ∧ s.Perm (l ++ m) := by
  intro l
  induction l with
  | nil => exact fun m hm _ _ _ => ⟨m, rfl, hm, by simp⟩
  | cons e t ih =>
      intro m hm hval hpair hdisj
      obtain ⟨k, v⟩ := e
      set e : Interval ℤ × V := (k, v) with he_def
      have hkv : e.1.valid := hval e (by simp)
      have hnoc : ∀ f ∈ m, e.1.cmp f.1 ≠ .eq := by
        intro f hf hc
        exact hdisj e (by simp) f hf
          ((cmp_eq_iff_overlaps e.1 f.1 hkv (hm.2 f hf)).mp hc)
      have hstep : insertAllFrom m (e :: t) =
          insertAllFrom (listInsert e.1 e.2 m) t := by
        rw [insertAllFrom, insert_interval_ok hkv hnoc]
      have hm' : Inv (listInsert e.1 e.2 m) := listInsert_inv hm hkv hnoc
      have hdisj' : ∀ a ∈ t, ∀ f ∈ listInsert e.1 e.2 m,
          ¬ Overlaps a.1 f.1 := by
        intro a ha f hf
        rcases mem_listInsert.mp hf with rfl | hf'
        · exact fun hc =>
            (List.pairwise_cons.mp hpair).1 a ha (overlaps_comm.mp hc)
        · exact hdisj a (by simp [ha]) f hf'
      obtain ⟨s, hrun, hs, hperm⟩ :=
        ih (listInsert e.1 e.2 m) hm'
          (fun a ha => hval a (by simp [ha]))
          (List.pairwise_cons.mp hpair).2 hdisj'
      refine ⟨s, by rw [hstep]; exact hrun, hs, ?_⟩
      have h1 : (t ++ listInsert e.1 e.2 m).Perm (t ++ (e :: m)) :=
        List.Perm.append_left t (listInsert_perm m e.1 e.2)
      have h2 : (t ++ (e :: m)).Perm (e :: (t ++ m)) := List.perm_middle
      exact (hperm.trans h1).trans h2

theorem cmp_lt_iff (a b : Interval ℤ) (ha : a.valid) (hb : b.valid) :
    a.cmp b = .lt ↔ a.hiEx ≤ b.lo := by
  rw [cmp_formula a b ha hb]
  split_ifs with h1 h2
  · simpa using h1
  · exact ⟨fun h => absurd h (by decide), fun h => absurd h h1⟩
  · exact ⟨fun h => absurd h (by decide), fun h => absurd h h1⟩

theorem cmp_gt_iff (a b : Interval ℤ) (ha : a.valid) (hb : b.valid) :
    a.cmp b = .gt ↔ b.hiEx ≤ a.lo := by
  have ha' := (valid_iff a).mp ha
  have hb' := (valid_iff b).mp hb
  rw [cmp_formula a b ha hb]
  split_ifs with h1 h2
  · exact ⟨fun h => absurd h (by decide), fun h => by exfalso; omega⟩
  · simpa using h2
  · exact ⟨fun h => absurd h (by decide), fun h => absurd h h2⟩

/-- Two maps satisfying the invariant with the same entries (as a multiset)
are identical: sortedness in the strict comparator order is rigid. -/
theorem inv_perm_eq {s s' : IntervalTreeMap ℤ V} (h : s.Perm s')
    (hs : Inv s) (hs' : Inv s') : s = s' := by
  have hsort : ∀ (u : IntervalTreeMap ℤ V), Inv u →
      u.Sorted (fun a b =>
        a.1.cmp b.1 = .lt ∧ a.1.valid ∧ b.1.valid) := by
    intro u hu
    exact hu.1.imp_of_mem (fun ha hb hr => ⟨hr, hu.2 _ ha, hu.2 _ hb⟩)
  haveI : IsAntisymm (Interval ℤ × V)
      (fun a b => a.1.cmp b.1 = .lt ∧ a.1.valid ∧ b.1.valid) := by
    constructor
    rintro a b ⟨hab, hav, hbv⟩ ⟨hba, _, _⟩
    have := cmp_gt_of_swap_lt hav hbv hab
    rw [this] at hba
    exact absurd hba (by simp)
  exact List.eq_of_perm_of_sorted h (hsort s hs) (hsort s' hs')

end MapLemmas

end ITree

namespace Str

theorem splitOnFirst_eq_none {c : Char} {s : List Char} (h : c ∉ s) :
    splitOnFirst c s = none := by
  induction s with
  | nil => rfl
  | cons x t ih =>
      have hxc : ¬ x = c := fun hxc => h (by simp [hxc])
      have hct : c ∉ t := fun hc => h (by simp [hc])
      simp [splitOnFirst, hxc, ih hct]

theorem splitOnFirst_append {c : Char} {a b : List Char} (h : c ∉ a) :
    splitOnFirst c (a ++ c :: b) = some (a, b) := by
  induction a with
  | nil => simp [splitOnFirst]
  | cons x t ih =>
      have hxc : ¬ x = c := fun hxc => h (by simp [hxc])
      have hct : c ∉ t := fun hc => h (by simp [hc])
      simp [splitOnFirst, hxc, ih hct]

end Str

/-! The claim theorems. -/

open ITree

/-- Claim C1: for every pair of well-formed intervals, the overlap comparator
returns `Equal` iff the covered sets intersect, `Less` iff every element of
the first lies below every element of the second, and `Greater` iff every
element of the first lies above every element of the second. -/
theorem claim_C1 (A B : ITree.Interval ℤ) (hA : A.valid) (hB : B.valid) :
    (A.cmp B = .eq ↔ ∃ x : ℤ, A.mem x ∧ B.mem x) ∧
    (A.cmp B = .lt ↔ ∀ x y : ℤ, A.mem x → B.mem y → x < y) ∧
    (A.cmp B = .gt ↔ ∀ x y : ℤ, A.mem x → B.mem y → y < x) := by
  have hA' := (valid_iff A).mp hA
  have hB' := (valid_iff B).mp hB
  refine ⟨cmp_eq_iff_overlaps A B hA hB, ?_, ?_⟩
  · rw [cmp_lt_iff A B hA hB]
    constructor
    · intro h x y hx hy
      rw [mem_iff] at hx hy
      omega
    · intro h
      by_contra hc
      have hx : A.mem (max A.lo B.lo) := by rw [mem_iff]; omega
      have hy : B.mem B.lo := by rw [mem_iff]; omega
      have := h (max A.lo B.lo) B.lo hx hy
      omega
  · rw [cmp_gt_iff A B hA hB]
    constructor
    · intro h x y hx hy
      rw [mem_iff] at hx hy
      omega
    · intro h
      by_contra hc
      have hx : A.mem A.lo := by rw [mem_iff]; omega
      have hy : B.mem (max A.lo B.lo) := by rw [mem_iff]; omega
      have := h A.lo (max A.lo B.lo) hx hy
      omega

/-- Witness for C1 at `A = [0, 2)`, `B = [1, 5]`: both hypotheses hold and
the comparator classifies the overlapping pair as `Equal`. -/
theorem claim_C1_witness :
    (ITree.Interval.Range (0 : ℤ) 2).valid = true ∧
    (ITree.Interval.Scope (1 : ℤ) 5).valid = true ∧
    (((ITree.Interval.Range (0 : ℤ) 2).cmp (ITree.Interval.Scope 1 5) = .eq ↔
        ∃ x : ℤ, (ITree.Interval.Range (0 : ℤ) 2).mem x ∧
          (ITree.Interval.Scope (1 : ℤ) 5).mem x) ∧
      ((ITree.Interval.Range (0 : ℤ) 2).cmp (ITree.Interval.Scope 1 5) = .lt ↔
        ∀ x y : ℤ, (ITree.Interval.Range (0 : ℤ) 2).mem x →
          (ITree.Interval.Scope (1 : ℤ) 5).mem y → x < y) ∧
      ((ITree.Interval.Range (0 : ℤ) 2).cmp (ITree.Interval.Scope 1 5) = .gt ↔
        ∀ x y : ℤ, (ITree.Interval.Range (0 : ℤ) 2).mem x →
          (ITree.Interval.Scope (1 : ℤ) 5).mem y → y < x)) :=
  ⟨by decide, by decide, claim_C1 _ _ (by decide) (by decide)⟩

/-- Claim C2: after any finite sequence of public operations applied to the
initially empty map, no two distinct stored keys compare `Equal` (overlap)
under the comparator, in either probing order. -/
theorem claim_C2 {α : Type} (ops : List (Op ℤ α)) :
    (applyOps ops).Pairwise
      (fun a b => a.1.cmp b.1 ≠ .eq ∧ b.1.cmp a.1 ≠ .eq) := by
  obtain ⟨hs, hv⟩ := applyOps_inv ops
  refine hs.imp_of_mem ?_
  intro a b ha hb hlt
  constructor
  · intro hc
    rw [hlt] at hc
    exact absurd hc (by decide)
  · intro hc
    have := cmp_gt_of_swap_lt (hv a ha) (hv b hb) hlt
    rw [this] at hc
    exact absurd hc (by decide)

/-- Claim C3: `insert_interval` returns `Invalid` (with the offending key and
the reversed/degenerate suggestion) exactly on malformed keys, `Conflict`
(carrying the candidate and a stored overlapping interval) exactly on
well-formed keys overlapping a stored one, inserts the pair otherwise, and
leaves the map unchanged in every error case. -/
theorem claim_C3 {α : Type} (m : IntervalTreeMap ℤ α) (hm : Inv m)
    (k : ITree.Interval ℤ) (v : α) :
    (∀ a b : ℤ, k = .Scope a b → b < a →
        insert_interval m k v = (.error (.Invalid k (.Scope b a)), m)) ∧
    (∀ a b : ℤ, k = .Range a b → b < a →
        insert_interval m k v = (.error (.Invalid k (.Range b a)), m)) ∧
    (∀ a b : ℤ, k = .Range a b → a = b →
        insert_interval m k v = (.error (.Invalid k (.Scope a b)), m)) ∧
    ((∃ i s, (insert_interval m k v).1 = .error (.Invalid i s)) ↔ ¬ k.valid) ∧
    ((∃ i ex, (insert_interval m k v).1 = .error (.Conflict i ex)) ↔
      (k.valid ∧ ∃ e ∈ m, Overlaps k e.1)) ∧
    (∀ i ex, (insert_interval m k v).1 = .error (.Conflict i ex) →
      i = k ∧ Overlaps k ex ∧ ∃ w, (ex, w) ∈ m) ∧
    (k.valid → (∀ e ∈ m, ¬ Overlaps k e.1) →
      (insert_interval m k v).1 = .ok () ∧
      ∀ e, e ∈ (insert_interval m k v).2 ↔ e = (k, v) ∨ e ∈ m) ∧
    (∀ err, (insert_interval m k v).1 = .error err →
      (insert_interval m k v).2 = m) := by
  refine ⟨?_, ?_, ?_, ?_, ?_, ?_, ?_, ?_⟩
  · rintro a b rfl hba
    have hsug : invalidSuggestion (ITree.Interval.Scope a b) =
        some (.Scope b a) := by simp [invalidSuggestion, hba]
    rw [insert_interval, hsug]
  · rintro a b rfl hba
    have hsug : invalidSuggestion (ITree.Interval.Range a b) =
        some (.Range b a) := by simp [invalidSuggestion, hba]
    rw [insert_interval, hsug]
  · rintro a b rfl hab
    subst hab
    have hsug : invalidSuggestion (ITree.Interval.Range a a) =
        some (.Scope a a) := by simp [invalidSuggestion]
    rw [insert_interval, hsug]
  · rw [insert_interval]
    rcases hs : invalidSuggestion k with _ | k'
    · rw [_insert]
      have hkval := invalidSuggestion_eq_none.mp hs
      rcases hf : findEntry m k with _ | e <;>
        simp [hkval]
    · constructor
      · intro _
        intro hval
        rw [invalidSuggestion_eq_none.mpr hval] at hs
        exact absurd hs (by simp)
      · exact fun _ => ⟨k, k', rfl⟩
  · rw [insert_interval]
    rcases hs : invalidSuggestion k with _ | k'
    · have hkval := invalidSuggestion_eq_none.mp hs
      rw [_insert]
      rcases hf : findEntry m k with _ | e
      · simp only [reduceCtorEq, exists_false, false_iff, not_and]
        intro _
        rintro ⟨e, he, hov⟩
        exact (findEntry_eq_none.mp hf e he)
          ((cmp_eq_iff_overlaps k e.1 hkval (hm.2 e he)).mpr hov)
      · obtain ⟨hem, heq⟩ := findEntry_some hf
        simp only [Except.error.injEq]
        constructor
        · intro _
          exact ⟨hkval, e, hem,
            (cmp_eq_iff_overlaps k e.1 hkval (hm.2 e hem)).mp heq⟩
        · exact fun _ => ⟨k, e.1, rfl⟩
    · simp only [Except.error.injEq, reduceCtorEq, exists_false, false_iff,
        not_and]
      intro hval
      rw [invalidSuggestion_eq_none.mpr hval] at hs
      simp at hs
  · intro i ex hc
    rw [insert_interval] at hc
    rcases hs : invalidSuggestion k with _ | k' <;> rw [hs] at hc
    · have hkval := invalidSuggestion_eq_none.mp hs
      rw [_insert] at hc
      rcases hf : findEntry m k with _ | e <;> rw [hf] at hc
      · simp at hc
      · obtain ⟨hem, heq⟩ := findEntry_some hf
        simp only [Except.error.injEq, IntervalError.Conflict.injEq] at hc
        obtain ⟨rfl, rfl⟩ := hc
        exact ⟨rfl, (cmp_eq_iff_overlaps k e.1 hkval (hm.2 e hem)).mp heq,
          e.2, hem⟩
    · simp at hc
  · intro hkval hno
    have hnoc : ∀ e ∈ m, k.cmp e.1 ≠ .eq := fun e he hc =>
      hno e he ((cmp_eq_iff_overlaps k e.1 hkval (hm.2 e he)).mp hc)
    rw [insert_interval_ok hkval hnoc]
    exact ⟨rfl, fun e => mem_listInsert⟩
  · intro err herr
    rcases insert_interval_cases m k v with
        ⟨k', _, heq⟩ | ⟨_, e, _, heq⟩ | ⟨_, _, heq⟩ <;>
      rw [heq] at herr ⊢ <;>
      first | rfl | simp at herr

/-- Witness for C3 on the one-entry map `{[0, 4) ↦ 0}` (which satisfies the
invariant) and the overlapping candidate `[3, 6]`. -/
theorem claim_C3_witness :
    Inv [(ITree.Interval.Range (0 : ℤ) 4, (0 : ℤ))] ∧
    ((∃ i ex,
        (insert_interval [(ITree.Interval.Range (0 : ℤ) 4, (0 : ℤ))]
          (ITree.Interval.Scope 3 6) 1).1 = .error (.Conflict i ex)) ↔
      ((ITree.Interval.Scope (3 : ℤ) 6).valid ∧
        ∃ e ∈ [(ITree.Interval.Range (0 : ℤ) 4, (0 : ℤ))],
          Overlaps (ITree.Interval.Scope (3 : ℤ) 6) e.1)) :=
  ⟨⟨by simp, by simp [ITree.Interval.valid]⟩,
    (claim_C3 [(ITree.Interval.Range (0 : ℤ) 4, (0 : ℤ))]
      ⟨by simp, by simp [ITree.Interval.valid]⟩
      (ITree.Interval.Scope 3 6) 1).2.2.2.2.1⟩

/-- Claim C4: after successfully inserting one valid interval into the empty
map, `query` returns the stored value exactly on the covered set (so for
`Range` the upper bound queries to `none`, for `Scope` to the value). -/
theorem claim_C4 {α : Type} (k : ITree.Interval ℤ) (hk : k.valid) (v : α) :
    (insert_interval ([] : IntervalTreeMap ℤ α) k v).1 = .ok () ∧
    ∀ x : ℤ, query (insert_interval ([] : IntervalTreeMap ℤ α) k v).2 x =
      if k.mem x then some v else none := by
  have hins : insert_interval ([] : IntervalTreeMap ℤ α) k v =
      (.ok (), [(k, v)]) := by
    rw [insert_interval_ok hk (by simp)]
    rfl
  rw [hins]
  refine ⟨rfl, ?_⟩
  intro x
  by_cases hmem : k.mem x
  · have : (ITree.Interval.Scope x x).cmp k = .eq :=
      (point_cmp_eq x k hk).mpr hmem
    simp [query, findEntry, List.find?, this, hmem,
      show (Ordering.eq == Ordering.eq) = true from rfl]
  · have : (ITree.Interval.Scope x x).cmp k ≠ .eq :=
      fun hc => hmem ((point_cmp_eq x k hk).mp hc)
    rw [query, findEntry]
    rw [List.find?_cons_of_neg _ (by simpa [ordering_beq_false_iff] using this)]
    simp [hmem]

/-- Witness for C4 at `[10, 12)` with value `7`: insertion succeeds, the two
covered points query to the value, and both neighbours (including the
half-open upper bound 12) query to `none`. -/
theorem claim_C4_witness :
    (ITree.Interval.Range (10 : ℤ) 12).valid = true ∧
    (insert_interval ([] : IntervalTreeMap ℤ ℤ)
        (ITree.Interval.Range 10 12) 7).1 = .ok () ∧
    (∀ x : ℤ, query (insert_interval ([] : IntervalTreeMap ℤ ℤ)
        (ITree.Interval.Range 10 12) 7).2 x =
      if (ITree.Interval.Range (10 : ℤ) 12).mem x then some 7 else none) :=
  ⟨by decide,
    (claim_C4 (ITree.Interval.Range 10 12) (by decide) 7).1,
    (claim_C4 (ITree.Interval.Range 10 12) (by decide) 7).2⟩

/-- Claim C5: under the map invariant, `remove_interval` with a well-formed
probe removes an entry and returns its value exactly when the probe is a
structural match of a stored key; any merely overlapping probe (sub-range,
super-range, …) returns `none` and leaves the map unchanged.  (An ill-formed
probe would instead trip the comparator assertion — see C7.) -/
theorem claim_C5 {α : Type} (m : IntervalTreeMap ℤ α) (hm : Inv m)
    (k : ITree.Interval ℤ) :
    ((∃ v, (k, v) ∈ m) →
      ∃ v, (k, v) ∈ m ∧ (remove_interval m k).1 = some v ∧
        ∀ e, e ∈ (remove_interval m k).2 ↔ (e ∈ m ∧ e ≠ (k, v))) ∧
    ((∀ v, (k, v) ∉ m) → remove_interval m k = (none, m)) := by
  constructor
  · rintro ⟨v, hv⟩
    refine ⟨v, hv, ?_⟩
    rw [remove_interval, findEntry_of_mem hm hv]
    simp only [if_pos rfl]
    exact _remove_of_mem hm hv
  · intro hno
    rw [remove_interval]
    rcases hf : findEntry m k with _ | e
    · rfl
    · have he : e.1 ≠ k := by
        rintro rfl
        exact hno e.2 (by simpa using (findEntry_some hf).1)
      simp [he]

/-- Witness for C5 on the invariant-satisfying map `{[0, 4) ↦ 9}` probed with
the stored key itself and (vacuously through the second conjunct via a fresh
map) a non-matching probe. -/
theorem claim_C5_witness :
    Inv [(ITree.Interval.Range (0 : ℤ) 4, (9 : ℤ))] ∧
    ((∃ v, (ITree.Interval.Range (0 : ℤ) 4, v) ∈
        [(ITree.Interval.Range (0 : ℤ) 4, (9 : ℤ))]) →
      ∃ v, (ITree.Interval.Range (0 : ℤ) 4, v) ∈
          [(ITree.Interval.Range (0 : ℤ) 4, (9 : ℤ))] ∧
        (remove_interval [(ITree.Interval.Range (0 : ℤ) 4, (9 : ℤ))]
          (ITree.Interval.Range (0 : ℤ) 4)).1 = some v ∧
        ∀ e, e ∈ (remove_interval [(ITree.Interval.Range (0 : ℤ) 4, (9 : ℤ))]
            (ITree.Interval.Range (0 : ℤ) 4)).2 ↔
          (e ∈ [(ITree.Interval.Range (0 : ℤ) 4, (9 : ℤ))] ∧
            e ≠ (ITree.Interval.Range (0 : ℤ) 4, v))) :=
  ⟨⟨by simp, by simp [ITree.Interval.valid]⟩,
    (claim_C5 [(ITree.Interval.Range (0 : ℤ) 4, (9 : ℤ))]
      ⟨by simp, by simp [ITree.Interval.valid]⟩
      (ITree.Interval.Range 0 4)).1⟩

/-- Claim C6: a batch of pairwise non-overlapping valid interval-value pairs
inserts successfully through `insert_interval` in any order, and both orders
produce the identical map (the same ordered entry sequence of the backing
tree). -/
theorem claim_C6 {α : Type} (l l' : List (ITree.Interval ℤ × α))
    (hperm : l.Perm l') (hval : ∀ e ∈ l, e.1.valid)
    (hdisj : l.Pairwise (fun a b => ¬ Overlaps a.1 b.1)) :
    ∃ s, insertAll l = some s ∧ insertAll l' = some s := by
  obtain ⟨s, hrun, hs, hp⟩ :=
    insertAllFrom_spec l [] ⟨by simp, by simp⟩ hval hdisj (by simp)
  have hval' : ∀ e ∈ l', e.1.valid := fun e he =>
    hval e (hperm.mem_iff.mpr he)
  have hdisj' : l'.Pairwise (fun a b => ¬ Overlaps a.1 b.1) :=
    ((hperm.pairwise_iff
      (fun h hc => h (overlaps_comm.mp hc))).mp hdisj)
  obtain ⟨s', hrun', hs', hp'⟩ :=
    insertAllFrom_spec l' [] ⟨by simp, by simp⟩ hval' hdisj' (by simp)
  have hss : s.Perm s' := by
    refine (hp.trans ?_).trans hp'.symm
    simpa using hperm
  have : s = s' := inv_perm_eq hss hs hs'
  exact ⟨s, hrun, by rw [← this] at hrun'; exact hrun'⟩

/-- Witness for C6 on the two-element batch `{[0, 4) ↦ 1, [10, 20] ↦ 2}` and
its reversal. -/
theorem claim_C6_witness :
    ([(ITree.Interval.Range (0 : ℤ) 4, (1 : ℤ)),
        (ITree.Interval.Scope 10 20, 2)].Perm
      [(ITree.Interval.Scope (10 : ℤ) 20, (2 : ℤ)),
        (ITree.Interval.Range 0 4, 1)]) ∧
    ∃ s, insertAll [(ITree.Interval.Range (0 : ℤ) 4, (1 : ℤ)),
        (ITree.Interval.Scope 10 20, 2)] = some s ∧
      insertAll [(ITree.Interval.Scope (10 : ℤ) 20, (2 : ℤ)),
        (ITree.Interval.Range 0 4, 1)] = some s :=
  ⟨List.Perm.swap _ _ _,
    claim_C6 _ _ (List.Perm.swap _ _ _)
      (by
        intro e he
        rcases List.mem_cons.mp he with rfl | he'
        · decide
        · rcases List.mem_cons.mp he' with rfl | he''
          · decide
          · simp at he'')
      (by
        refine List.pairwise_cons.mpr ⟨?_, by simp⟩
        intro b hb
        rcases List.mem_cons.mp hb with rfl | hb'
        · rintro ⟨x, hx1, hx2⟩
          rw [mem_iff] at hx1 hx2
          simp [ITree.Interval.lo, ITree.Interval.hiEx] at hx1 hx2
          omega
        · simp at hb')⟩

/-- Claim C7 (amended): on every invariant-satisfying (publicly reachable)
map, the insert operations with arbitrary arguments, `query` and
`get_key_value` with arbitrary points, and `remove_interval` with a
well-formed probe perform no comparison that trips the comparator's
assertions, and return their normal results.  (The original claim also
covered `remove_interval` with arbitrary — possibly ill-formed — probes;
that case panics, see `claim_C7_counterexample`.) -/
theorem claim_C7_amended {α : Type} (m : IntervalTreeMap ℤ α) (hm : Inv m)
    (k : ITree.Interval ℤ) (v : α) (a b p : ℤ) (k' : ITree.Interval ℤ)
    (hk' : k'.valid) :
    insert_interval_checked m k v = some (insert_interval m k v) ∧
    insert_range_checked m a b v = some (insert_range m a b v) ∧
    insert_scope_checked m a b v = some (insert_scope m a b v) ∧
    insert_point_checked m p v = some (insert_point m p v) ∧
    query_checked m p = some (query m p) ∧
    get_key_value_checked m p = some (get_key_value m p) ∧
    remove_interval_checked m k' = some (remove_interval m k') :=
  ⟨insert_interval_checked_eq hm.2 k v,
    insert_interval_checked_eq hm.2 (.Range a b) v,
    insert_interval_checked_eq hm.2 (.Scope a b) v,
    insert_interval_checked_eq hm.2 (.Scope p p) v,
    query_checked_eq hm.2 p,
    get_key_value_checked_eq hm.2 p,
    remove_interval_checked_eq hm.2 hk'⟩

/-- Witness for C7 (amended) on the reachable one-entry map `{[0, 4) ↦ 1}`. -/
theorem claim_C7_amended_witness :
    Inv [(ITree.Interval.Range (0 : ℤ) 4, (1 : ℤ))] ∧
    (ITree.Interval.Scope (0 : ℤ) 0).valid = true ∧
    (insert_interval_checked [(ITree.Interval.Range (0 : ℤ) 4, (1 : ℤ))]
        (ITree.Interval.Range 9 5) 2 =
      some (insert_interval [(ITree.Interval.Range (0 : ℤ) 4, (1 : ℤ))]
        (ITree.Interval.Range 9 5) 2) ∧
      insert_range_checked [(ITree.Interval.Range (0 : ℤ) 4, (1 : ℤ))] 6 8 2 =
        some (insert_range [(ITree.Interval.Range (0 : ℤ) 4, (1 : ℤ))] 6 8 2) ∧
      insert_scope_checked [(ITree.Interval.Range (0 : ℤ) 4, (1 : ℤ))] 6 8 2 =
        some (insert_scope [(ITree.Interval.Range (0 : ℤ) 4, (1 : ℤ))] 6 8 2) ∧
      insert_point_checked [(ITree.Interval.Range (0 : ℤ) 4, (1 : ℤ))] 2 2 =
        some (insert_point [(ITree.Interval.Range (0 : ℤ) 4, (1 : ℤ))] 2 2) ∧
      query_checked [(ITree.Interval.Range (0 : ℤ) 4, (1 : ℤ))] 2 =
        some (query [(ITree.Interval.Range (0 : ℤ) 4, (1 : ℤ))] 2) ∧
      get_key_value_checked [(ITree.Interval.Range (0 : ℤ) 4, (1 : ℤ))] 2 =
        some (get_key_value [(ITree.Interval.Range (0 : ℤ) 4, (1 : ℤ))] 2) ∧
      remove_interval_checked [(ITree.Interval.Range (0 : ℤ) 4, (1 : ℤ))]
          (ITree.Interval.Scope 0 0) =
        some (remove_interval [(ITree.Interval.Range (0 : ℤ) 4, (1 : ℤ))]
          (ITree.Interval.Scope 0 0))) :=
  ⟨⟨by simp, by simp [ITree.Interval.valid]⟩, by decide,
    claim_C7_amended [(ITree.Interval.Range (0 : ℤ) 4, (1 : ℤ))]
      ⟨by simp, by simp [ITree.Interval.valid]⟩
      (ITree.Interval.Range 9 5) 2 6 8 2 (ITree.Interval.Scope 0 0)
      (by decide)⟩

/-- Counterexample to C7 as stated: on the map reached from empty by the
public call `insert_scope 0 5`, the public call
`remove_interval (Range 5 3)` makes the `BTreeMap` lookup compare the
ill-formed probe `Range(5, 3)` with the stored key, tripping the
comparator's `assert_eq!(r0 < r1, true)`: the panic-aware model returns
`none` (a panic), so this entry point does not always return a normal
value. -/
theorem claim_C7_counterexample :
    remove_interval_checked
      ((insert_scope ([] : IntervalTreeMap ℤ Bool) 0 5 true).2)
      (ITree.Interval.Range 5 3) = none := by decide

/-- Claim C8: the address-range string parsers compute, for `"a/n"` with
`0 < n <` full width, the closed interval `lo = a & mask`,
`hi = lo + (2^(bits-n) - 1)`; `"a/0"` succeeds (whole space) iff `a` is the
all-zero address; `"a/32"` (IPv4) and `"a/128"` (IPv6) give the single point
`{a}`; and concretely `"100.0.0.1/20"` parses to 100.0.0.0–100.0.15.255,
`"::1/120"` to ::–::0.0.0.255, and `"100.0.0.1-100"` to
100.0.0.1–100.0.0.100. -/
theorem claim_C8 :
    (∀ ip n : ℕ, 0 < n → n < 32 →
      Util.cidr4 ip n = some (Nat.land ip (2 ^ 32 - 2 ^ (32 - n)),
        Nat.land ip (2 ^ 32 - 2 ^ (32 - n)) + (2 ^ (32 - n) - 1))) ∧
    (∀ ip n : ℕ, 0 < n → n < 128 →
      Util.cidr6 ip n = some (Nat.land ip (2 ^ 128 - 2 ^ (128 - n)),
        Nat.land ip (2 ^ 128 - 2 ^ (128 - n)) + (2 ^ (128 - n) - 1))) ∧
    (∀ ip : ℕ,
      Util.cidr4 ip 0 = if ip = 0 then some (0, 2 ^ 32 - 1) else none) ∧
    (∀ ip : ℕ,
      Util.cidr6 ip 0 = if ip = 0 then some (0, 2 ^ 128 - 1) else none) ∧
    (∀ ip : ℕ, Util.cidr4 ip 32 = some (ip, ip)) ∧
    (∀ ip : ℕ, Util.cidr6 ip 128 = some (ip, ip)) ∧
    (∀ (a b : List Char) (ip n : ℕ),
      Str.parseIPv4 a = some ip → Str.parseU8 b = some n →
      '-' ∉ a → '-' ∉ b → '/' ∉ a → (a ++ '/' :: b).length ≤ 31 →
      Util.ipv4_interval_from_str (a ++ '/' :: b) = Util.cidr4 ip n) ∧
    (∀ (a b : List Char) (ip n : ℕ),
      Str.parseIPv6 a = some ip → Str.parseU8 b = some n →
      '/' ∉ a → ':' ∈ a → (a ++ '/' :: b).length ≤ 48 →
      Util.ipv6_interval_from_str (a ++ '/' :: b) = Util.cidr6 ip n) ∧
    Util.ipv4_interval_from_str "100.0.0.1/20".toList =
      some (1677721600, 1677725695) ∧
    Util.ipv6_interval_from_str "::1/120".toList = some (0, 255) ∧
    Util.ipv4_interval_from_str "100.0.0.1-100".toList =
      some (1677721601, 1677721700) := by
  refine ⟨?_, ?_, ?_, ?_, ?_, ?_, ?_, ?_, by decide, by decide, by decide⟩
  · intro ip n h1 h2
    have hn0 : ¬ n = 0 := by omega
    have hn32 : ¬ n = 32 := by omega
    have hp : 1 ≤ 2 ^ (32 - n) := Nat.one_le_two_pow
    simp [Util.cidr4, hn0, hn32, h2]
    congr 1
    omega
  · intro ip n h1 h2
    have hn0 : ¬ n = 0 := by omega
    have hn128 : ¬ n = 128 := by omega
    have hp : 1 ≤ 2 ^ (128 - n) := Nat.one_le_two_pow
    simp [Util.cidr6, hn0, hn128, h2]
    congr 1
    omega
  · intro ip
    simp [Util.cidr4]
  · intro ip
    simp [Util.cidr6]
  · intro ip
    simp [Util.cidr4]
  · intro ip
    simp [Util.cidr6]
  · intro a b ip n hip hn hda hdb hsa hlen
    have hnd : ('-' : Char) ∉ a ++ '/' :: b := by
      intro hc
      rcases List.mem_append.mp hc with h | h
      · exact hda h
      · rcases List.mem_cons.mp h with h' | h'
        · exact absurd h' (by decide)
        · exact hdb h'
    have h1 : Str.splitOnFirst '-' (a ++ '/' :: b) = none :=
      Str.splitOnFirst_eq_none hnd
    have h2 : Str.splitOnFirst '/' (a ++ '/' :: b) = some (a, b) :=
      Str.splitOnFirst_append hsa
    have hlen' : ¬ (a ++ '/' :: b).length > 31 := by omega
    simp only [Util.ipv4_interval_from_str, if_neg hlen', h1, h2, hip, hn]
  · intro a b ip n hip hn hsa hca hlen
    have hcol : (a ++ '/' :: b).contains ':' = true :=
      List.elem_eq_true_of_mem (List.mem_append.mpr (Or.inl hca))
    have hcond : ¬ ((a ++ '/' :: b).length > 48 ∨
        ¬ (a ++ '/' :: b).contains ':') := by
      rintro (h | h)
      · omega
      · rw [hcol] at h
        exact h rfl
    have h2 : Str.splitOnFirst '/' (a ++ '/' :: b) = some (a, b) :=
      Str.splitOnFirst_append hsa
    simp only [Util.ipv6_interval_from_str, if_neg hcond, h2, hip, hn]

/-- Witness for C8: the general CIDR computations instantiated at
`100.0.0.1/20` and `::1/120`, and the string-level glue at the dotted-quad
input, with every hypothesis discharged concretely. -/
theorem claim_C8_witness :
    Util.cidr4 1677721601 20 =
      some (Nat.land 1677721601 (2 ^ 32 - 2 ^ (32 - 20)),
        Nat.land 1677721601 (2 ^ 32 - 2 ^ (32 - 20)) + (2 ^ (32 - 20) - 1)) ∧
    Util.cidr6 1 120 =
      some (Nat.land 1 (2 ^ 128 - 2 ^ (128 - 120)),
        Nat.land 1 (2 ^ 128 - 2 ^ (128 - 120)) + (2 ^ (128 - 120) - 1)) ∧
    Util.ipv4_interval_from_str ("100.0.0.1".toList ++ '/' :: "20".toList) =
      Util.cidr4 1677721601 20 :=
  ⟨claim_C8.1 1677721601 20 (by decide) (by decide),
    claim_C8.2.1 1 120 (by decide) (by decide),
    claim_C8.2.2.2.2.2.2.1 "100.0.0.1".toList "20".toList 1677721601 20
      (by decide) (by decide) (by decide) (by decide) (by decide) (by decide)⟩

/-- Claim C9 (code bug): for an accepted `"ipv6"` registry line with base
address `a` and field-5 value `n`, `parse_ipv6_range` produces the half-open
range from the unmasked base covering `2^n` addresses — not the `2^(128-n)`
addresses of the prefix-length-`n` CIDR block that field 5 denotes.  At the
real-world line `apnic|CN|ipv6|2001:250::|32|19990827|allocated` the code
yields `[2001:250::, 2001:250:: + 2^32)`, i.e. `2^32` addresses instead of
the `2^96` addresses of `2001:250::/32`.  (The `"ipv4"` branch, by contrast,
does yield field-5-many consecutive addresses.) -/
theorem claim_C9_code_eval :
    Str.parseIPv6 "2001:250::".toList = some (536937040 * 2 ^ 96) ∧
    Rir.parse_ipv6_range "2001:250::".toList "32".toList =
      some (.Range (536937040 * 2 ^ 96) (536937040 * 2 ^ 96 + 2 ^ 32)) ∧
    Rir.parse_line
        "apnic|CN|ipv6|2001:250::|32|19990827|allocated".toList =
      some { range := .Ipv6 (.Range (536937040 * 2 ^ 96)
                (536937040 * 2 ^ 96 + 2 ^ 32)),
             state := .Allocated, code := ⟨"CN".toList⟩ } ∧
    (536937040 * 2 ^ 96 + 2 ^ 32) - 536937040 * 2 ^ 96 = 2 ^ 32 ∧
    (2 : ℕ) ^ 32 ≠ 2 ^ (128 - 32) ∧
    Rir.parse_ipv4_range "1.0.1.0".toList "256".toList =
      some (.Range 16777472 (16777472 + 256)) := by
  refine ⟨by decide, by decide, by decide, by decide, by decide, by decide⟩

/-- Claim C10: on input `"a-n"` with a valid dotted-quad `a` and a decimal
`u8` count `n` (no `'.'` on the right-hand side), the parser returns `Ok` of
the interval from `a` to `(a & 0xFFFFFF00) + n` — the count replaces the last
octet rather than being added — with no ordering validation, so
`"100.0.0.200-100"` yields an interval whose upper bound is numerically below
its lower bound. -/
theorem claim_C10 :
    (∀ (a b : List Char) (ip n : ℕ),
      Str.parseIPv4 a = some ip → Str.parseU8 b = some n →
      '.' ∉ b → '-' ∉ a → '-' ∉ b → (a ++ '-' :: b).length ≤ 31 →
      Util.ipv4_interval_from_str (a ++ '-' :: b) =
        some (ip, Nat.land ip 4294967040 + n)) ∧
    Util.ipv4_interval_from_str "100.0.0.200-100".toList =
      some (1677721800, 1677721700) ∧
    (1677721700 : ℕ) < 1677721800 := by
  refine ⟨?_, by decide, by decide⟩
  intro a b ip n hip hn hpb hda hdb hlen
  have h2 : Str.splitOnFirst '-' (a ++ '-' :: b) = some (a, b) :=
    Str.splitOnFirst_append hda
  have hlen' : ¬ (a ++ '-' :: b).length > 31 := by omega
  have hbc : b.contains '.' = false := by
    have he : List.elem '.' b = decide (('.' : Char) ∈ b) :=
      List.elem_eq_mem '.' b
    simp only [List.contains]
    rw [he]
    simpa using hpb
  simp only [Util.ipv4_interval_from_str, if_neg hlen', h2, hip, hbc, hn,
    Bool.false_eq_true, if_false]

/-- Witness for C10: the general dash-branch computation applied at
`"100.0.0.200-100"`, every hypothesis discharged concretely. -/
theorem claim_C10_witness :
    Util.ipv4_interval_from_str
        ("100.0.0.200".toList ++ '-' :: "100".toList) =
      some (1677721800, Nat.land 1677721800 4294967040 + 100) :=
  claim_C10.1 "100.0.0.200".toList "100".toList 1677721800 100
    (by decide) (by decide) (by decide) (by decide) (by decide) (by decide)

end Ip2c
